import Mathlib

/-!
Shallow embedding of the EaseCHAOS timetable extraction pipeline
(`extract/extract_table.py` and `api/routes/timetable.py`).

Spreadsheet cells are `Option String`: `none` stands for an empty /
NaN / None cell, `some s` for a textual cell.  Python's `str(x)` on a
missing value prints `"None"`, which `cellStr` reproduces.
-/

set_option autoImplicit false

/-- A spreadsheet / DataFrame cell: `none` is an absent (NaN/None) value. -/
abbrev Cell := Option String

/-- Python `str(x)` as applied to a cell (`str(None) = "None"`). -/
def cellStr : Cell → String
  | some s => s
  | none => "None"

/-- Consume one or two leading decimal digits (greedy), as the regex
fragment `\d{1,2}` does when followed by a non-digit; returns the rest. -/
def takeDigits12 : List Char → Option (List Char)
  | [] => none
  | c :: rest =>
    if c.isDigit then
      match rest with
      | d :: rest2 => if d.isDigit then some rest2 else some rest
      | [] => some []
    else none

/-- Consume one expected character. -/
def expectChar (c : Char) : List Char → Option (List Char)
  | [] => none
  | x :: rest => if x = c then some rest else none

/-- Consume `\d{1,2}:\d{1,2}` (a clock reading). -/
def matchClock (l : List Char) : Option (List Char) :=
  ((takeDigits12 l).bind (expectChar ':')).bind takeDigits12

/-- The time-slot header test of `_get_time_row`:
`re.match(r"^\d{1,2}:\d{1,2}-\d{1,2}:\d{1,2}$", s)`.  The `$` anchor of
Python's `re`/`regex` also matches just before a single trailing newline,
which the last case reproduces. -/
def isTimeSlotLabel (s : String) : Bool :=
  match ((matchClock s.data).bind (expectChar '-')).bind matchClock with
  | some [] => true
  | some [c] => c = '\n'
  | _ => false

/-- The scan of `_get_time_row`: walk the rows (with their positional
index, pandas' default `RangeIndex`) and return the first row whose
second cell, stringified, matches the time-slot pattern. -/
def getTimeRowAux : Nat → List (List Cell) → Option (Nat × List Cell)
  | _, [] => none
  | i, r :: rs =>
    if isTimeSlotLabel (cellStr (r.getD 1 none)) then some (i, r)
    else getTimeRowAux (i + 1) rs

/-- `_get_time_row(df)`: first row whose second column matches the
time-slot pattern, together with its index; `none` when no row matches. -/
def getTimeRow (rows : List (List Cell)) : Option (Nat × List Cell) :=
  getTimeRowAux 0 rows

/-- One row of a `DailyTable`: the classroom label (the index produced by
`set_index("Classroom")`) and the per-timeslot cells. -/
structure DailyRow where
  classroom : Cell
  cells : List Cell
deriving DecidableEq, Repr

/-- The output of `_get_daily_table`: the timeslot column labels (the time
row minus its first cell) and the filtered classroom rows. -/
structure DailyTable where
  cols : List Cell
  rows : List DailyRow
deriving DecidableEq, Repr

/-- One cell of `df.mask(~df.map(lambda x: bool(re.search(pattern, str(x)))))`:
keep the cell when the pattern search succeeds on its printed form,
otherwise make it absent.  The regex engine is abstracted as the boolean
function `matchFn` (the pattern already applied). -/
def maskCell (matchFn : String → Bool) (c : Cell) : Cell :=
  if matchFn (cellStr c) then c else none

/-- `_get_daily_table(df, class_pattern)` on the row grid of `df`:
locate the time row, reindex on the first column (`Classroom`), keep the
rows strictly below the time row, mask cells that do not match the class
pattern, and drop rows whose data cells are all absent.  Returns `none`
when no time row exists (the Python code then fails subscripting `None`). -/
def getDailyTable (matchFn : String → Bool) (df : List (List Cell)) : Option DailyTable :=
  match getTimeRow df with
  | none => none
  | some (i, tr) =>
    let dataRows := df.drop (i + 1)
    let rows := dataRows.map
      (fun r => DailyRow.mk (r.getD 0 none) ((r.drop 1).map (maskCell matchFn)))
    some ⟨tr.drop 1, rows.filter (fun dr => dr.cells.any Option.isSome)⟩

/-!
### Slot merging (`/get_time_table` route, `api/routes/timetable.py`)

One record of the JSON table is a day: an ordered list of
(timeslot-label, value) pairs, the value being a string or `null`.
-/

/-- Python `key.split(sep)` for a one-character separator (always returns
at least one, possibly empty, part). -/
def pySplit (sep : Char) : List Char → List (List Char)
  | [] => [[]]
  | c :: rest =>
    let r := pySplit sep rest
    if c = sep then [] :: r
    else
      match r with
      | g :: gs => (c :: g) :: gs
      | [] => [[c]]

/-- Python `"-".join(parts)`. -/
def joinDash : List String → String
  | [] => ""
  | [s] => s
  | s :: rest => s ++ "-" ++ joinDash rest

/-- The label decomposition of the merging loop:
`time_parts = key.split("-")`; with exactly two parts they are
`(start, end)`; otherwise `start = "-".join(time_parts[:-1])` and
`end = time_parts[-1]`. -/
def splitLabel (key : String) : String × String :=
  let parts := (pySplit '-' key.data).map (fun l => String.mk l)
  if parts.length = 2 then (parts.getD 0 "", parts.getD 1 "")
  else (joinDash parts.dropLast, parts.getLastD "")

/-- A merged time block `{"start": .., "end": .., "value": ..}` (the
`end` key is spelled `end_` because `end` is a Lean keyword). -/
structure Block where
  start : String
  end_ : String
  value : Option String
deriving DecidableEq, Repr

/-- One day slot as serialized: a timeslot label and a value. -/
abbrev Slot := String × Option String

/-- The merging loop of the `/get_time_table` route: walk the day's
(label, value) pairs keeping the open block `cur` and the emitted blocks
`acc`; extend the open block when its value equals the new value and its
end equals the new start, otherwise emit it and open a new block; after
the last pair emit the still-open block. -/
def mergeLoop : Option Block → List Block → List Slot → List Block
  | none, acc, [] => acc
  | some b, acc, [] => acc ++ [b]
  | cur, acc, (k, v) :: rest =>
    let se := splitLabel k
    match cur with
    | some b =>
      if b.value = v ∧ b.end_ = se.1 then
        mergeLoop (some ⟨b.start, se.2, b.value⟩) acc rest
      else
        mergeLoop (some ⟨se.1, se.2, v⟩) (acc ++ [b]) rest
    | none => mergeLoop (some ⟨se.1, se.2, v⟩) acc rest

/-- One day's merged blocks (`current_slot = None`, `day_data = []`). -/
def mergeDay (slots : List Slot) : List Block :=
  mergeLoop none [] slots

/-!
### Weekly table building (`get_time_table` in `extract/extract_table.py`)

The function receives the per-sheet daily tables as an insertion-ordered
dict (here a list of `(sheet name, DailyTable)` pairs in file order).
-/

/-- The weekday list of `get_time_table`. -/
def days5 : List String := ["Monday", "Tuesday", "Wednesday", "Thursday", "Friday"]

/-- `ValueError(f"No sheet found for any of the days: {days}")`, modelled
as a structured error carrying the attempted weekday list. -/
inductive ExtractErr where
  | noWeekdaySheet (attempted : List String)
deriving DecidableEq, Repr

/-- Python `str.title()` for ASCII text: the first letter of each
alphabetic run is uppercased, the following letters lowercased. -/
def pyTitleGo : Bool → List Char → List Char
  | _, [] => []
  | prevAlpha, c :: rest =>
    if c.isAlpha then
      (if prevAlpha then c.toLower else c.toUpper) :: pyTitleGo true rest
    else c :: pyTitleGo false rest

/-- Python `s.title()`. -/
def pyTitle (s : String) : String := ⟨pyTitleGo false s.data⟩

/-- Python `\s` on ASCII text: space, tab, newline, carriage return,
vertical tab, form feed. -/
def isPySpace (c : Char) : Bool :=
  c = ' ' || c = '\t' || c = '\n' || c = '\r' || c = '\x0b' || c = '\x0c'

/-- Python `s.strip()`. -/
def pyStrip (s : String) : String :=
  ⟨((s.data.dropWhile isPySpace).reverse.dropWhile isPySpace).reverse⟩

/-- `re.sub(r"\s+", " ", ·)`: collapse each maximal whitespace run to a
single space (the flag records whether the current run already emitted). -/
def collapseWSGo : Bool → List Char → List Char
  | _, [] => []
  | inRun, c :: rest =>
    if isPySpace c then
      if inRun then collapseWSGo true rest
      else ' ' :: collapseWSGo true rest
    else c :: collapseWSGo false rest

/-- `re.sub(r"\s+", " ", c.strip())`. -/
def normalizeWS (s : String) : String := ⟨collapseWSGo false (pyStrip s).data⟩

/-- Python `"\n".join(strs)`. -/
def joinNL : List String → String
  | [] => ""
  | [s] => s
  | s :: rest => s ++ "\n" ++ joinNL rest

/-- The `final_df` under construction: its row labels (index), its column
labels, and the log of `final_df.loc[day, period] = v` assignments
(lookups take the last matching assignment). -/
structure WeeklyTable where
  rowLabels : List String
  colLabels : List Cell
  entries : List ((String × Cell) × String)
deriving DecidableEq, Repr

/-- `final_df.loc[day, period] = v`: pandas setting-with-enlargement
appends an unknown row or column label before storing the value. -/
def assignLoc (wt : WeeklyTable) (day : String) (period : Cell) (v : String) : WeeklyTable :=
  { rowLabels := if day ∈ wt.rowLabels then wt.rowLabels else wt.rowLabels ++ [day]
    colLabels := if period ∈ wt.colLabels then wt.colLabels else wt.colLabels ++ [period]
    entries := wt.entries ++ [((day, period), v)] }

/-- Reading one cell of the built table: the last value assigned at
`(day, period)`, if any. -/
def lookupCell (wt : WeeklyTable) (day : String) (period : Cell) : Option String :=
  (wt.entries.reverse.find? (fun e => e.1.1 == day && e.1.2 == period)).map (fun e => e.2)

/-- Column `j` of a daily table restricted to its present cells:
`classes.dropna()` values paired with `classes[classes.notna()].index`
classrooms, in row order. -/
def availEntries (t : DailyTable) (j : Nat) : List (Cell × String) :=
  t.rows.filterMap (fun dr => (dr.cells.getD j none).map (fun s => (dr.classroom, s)))

/-- The body of the inner fill loop for one `(period, classes)` column:
if some present value is truthy, normalize each value's whitespace, tag it
with its classroom as `"<class> (<classroom>)"`, join with newlines and
assign at `[day, period]`; otherwise leave the cell absent. -/
def fillPeriod (wt : WeeklyTable) (day : String) (t : DailyTable) (j : Nat) : WeeklyTable :=
  let period := t.cols.getD j none
  let avail := availEntries t j
  if avail.any (fun p => p.2 != "") then
    assignLoc wt day period
      (joinNL (avail.map (fun p => normalizeWS p.2 ++ " (" ++ cellStr p.1 ++ ")")))
  else wt

/-- `for period, classes in table.items()`: fill every column of one
day's table in column order. -/
def fillDay (wt : WeeklyTable) (day : String) (t : DailyTable) : WeeklyTable :=
  (List.range t.cols.length).foldl (fun w j => fillPeriod w day t j) wt

/-- `for day, table in daily_tables.items()`: fill all sheets in order. -/
def fillAll : WeeklyTable → List (String × DailyTable) → WeeklyTable
  | wt, [] => wt
  | wt, (day, t) :: rest => fillAll (fillDay wt day t) rest

/-- The column-selection loop: the first sheet whose title-cased name is
one of the five weekdays. -/
def firstWeekday : List (String × DailyTable) → Option DailyTable
  | [] => none
  | (k, t) :: rest => if pyTitle k ∈ days5 then some t else firstWeekday rest

deriving instance DecidableEq for Except

/-- `get_time_table` after extraction: pick the column layout from the
first weekday-titled sheet (error when none exists), start from the empty
five-weekday frame, then fill from every sheet. -/
def buildWeeklyTable (tables : List (String × DailyTable)) : Except ExtractErr WeeklyTable :=
  match firstWeekday tables with
  | none => .error (.noWeekdaySheet days5)
  | some t => .ok (fillAll ⟨days5, t.cols, []⟩ tables)

/-!
### Calendar generation (`generate_calendar` in `extract/extract_table.py`)

Dates are modelled as day numbers with a seven-day weekday cycle anchored
at `0 = Monday`; the `start_date`/`end_date` strings become the first and
last day number of the inclusive range.  Time parsing failures
(`datetime.strptime` raising `ValueError`) are the `Except` error case.
-/

/-- One timetable entry: a day name and its list of blocks. -/
structure DayEntry where
  day : String
  data : List Block
deriving DecidableEq, Repr

/-- One emitted calendar event: summary, the date it is bound to, and the
start/end clock times `(hour, minute)` placed on that date. -/
structure CalEvent where
  summary : String
  date : Nat
  startHM : Nat × Nat
  endHM : Nat × Nat
deriving DecidableEq, Repr

/-- `current_date.strftime("%A")` for the modelled day numbers. -/
def weekDayName (n : Nat) : String :=
  (["Monday", "Tuesday", "Wednesday", "Thursday", "Friday", "Saturday", "Sunday"]).getD (n % 7) ""

/-- Greedy 1-2 digit numeral, as `strptime`'s `%H`/`%M` consume. -/
def parse12Digits : List Char → Option (Nat × List Char)
  | [] => none
  | c :: rest =>
    if c.isDigit then
      match rest with
      | d :: rest2 =>
        if d.isDigit then some ((c.toNat - 48) * 10 + (d.toNat - 48), rest2)
        else some (c.toNat - 48, rest)
      | [] => some (c.toNat - 48, [])
    else none

/-- `datetime.strptime(s, "%H:%M")`, keeping only the clock reading:
1-2 digit hour below 24, `:`, 1-2 digit minute below 60, nothing after. -/
def parseHM (s : String) : Option (Nat × Nat) :=
  match parse12Digits s.data with
  | none => none
  | some (h, rest) =>
    match expectChar ':' rest with
    | none => none
    | some rest2 =>
      match parse12Digits rest2 with
      | some (m, []) => if h ≤ 23 ∧ m ≤ 59 then some (h, m) else none
      | _ => none

/-- Python truthiness of a string. -/
def truthyStr (s : String) : Bool := s != ""

/-- Python truthiness of a string-or-None JSON value. -/
def truthyVal : Option String → Bool
  | some s => s != ""
  | none => false

/-- `class_info["value"].replace("\n", " ")`. -/
def pyReplaceNL (s : String) : String :=
  ⟨s.data.map (fun c => if c = '\n' then ' ' else c)⟩

/-- The per-block body of `generate_calendar`: blocks whose start, end and
value are all truthy produce one event on the given date; other blocks
produce nothing; a truthy block whose times fail `%H:%M` parsing raises. -/
def blockEvents (date : Nat) (b : Block) : Except String (List CalEvent) :=
  if truthyStr b.start && truthyStr b.end_ && truthyVal b.value then
    match parseHM b.start, parseHM b.end_ with
    | some st, some en =>
      .ok [⟨pyReplaceNL (cellStr b.value), date, st, en⟩]
    | _, _ => .error "DateParseError"
  else .ok []

/-- `for class_info in day["data"]`: events of one entry's blocks in order. -/
def dayEntryEvents (date : Nat) : List Block → Except String (List CalEvent)
  | [] => .ok []
  | b :: rest => do
    let e ← blockEvents date b
    let r ← dayEntryEvents date rest
    .ok (e ++ r)

/-- `for day in data: if day["day"] == day_name: ...` — every entry whose
day name equals the date's weekday name contributes (there is no break). -/
def eventsForDate (date : Nat) : List DayEntry → Except String (List CalEvent)
  | [] => .ok []
  | d :: rest =>
    if d.day = weekDayName date then do
      let e ← dayEntryEvents date d.data
      let r ← eventsForDate date rest
      .ok (e ++ r)
    else eventsForDate date rest

/-- Same walk restricted to an explicit entry list (used to state that the
loop serves all matching entries): events of each listed entry, in order. -/
def eventsOfEntries (date : Nat) : List DayEntry → Except String (List CalEvent)
  | [] => .ok []
  | d :: rest => do
    let e ← dayEntryEvents date d.data
    let r ← eventsOfEntries date rest
    .ok (e ++ r)

/-- `while current_date <= end_date`: the inclusive day-number range. -/
def dateRange (startD endD : Nat) : List Nat :=
  (List.range (endD + 1 - startD)).map (fun i => startD + i)

/-- Walk the date range accumulating the events of every date. -/
def calendarGo (data : List DayEntry) : List Nat → Except String (List CalEvent)
  | [] => .ok []
  | d :: ds => do
    let e ← eventsForDate d data
    let r ← calendarGo data ds
    .ok (e ++ r)

/-- `generate_calendar(timetable, start_date, end_date)`: all events of
all dates from start to end inclusive, in date order. -/
def generateCalendar (data : List DayEntry) (startD endD : Nat) : Except String (List CalEvent) :=
  calendarGo data (dateRange startD endD)

/-!
### Object-store embedding of `_get_daily_table` (frame effect)

To talk about mutation, DataFrame objects live in an explicit store (a
list of objects, a reference being an index).  `df.copy()` allocates a
fresh object; the two in-place statements (`df.columns = new_cols` and
`df.set_index("Classroom", inplace=True)`) write through the store; the
remaining steps build fresh values.
-/

/-- A pandas DataFrame object: its row index, column labels and data grid. -/
structure PyDataFrame where
  idx : List Cell
  cols : List Cell
  rows : List (List Cell)
deriving DecidableEq, Repr, Inhabited

/-- `_get_daily_table(df, class_pattern)` with the object store explicit:
copy the argument, find the time row on the copy, relabel the copy's
columns in place, set its index in place, then slice / mask / drop into a
fresh `DailyTable`.  Returns the final store and the result (`none` when
no time row matches). -/
def getDailyTableST (matchFn : String → Bool) (st : List PyDataFrame) (ref : Nat) :
    List PyDataFrame × Option DailyTable :=
  -- df = df.copy()
  let dfv := st.getD ref default
  let cref := st.length
  let st1 := st ++ [dfv]
  match getTimeRow dfv.rows with
  | none => (st1, none)
  | some (i, tr) =>
    -- df.columns = new_cols (in place on the copy)
    let o1 := st1.getD cref default
    let st2 := st1.set cref { o1 with cols := some "Classroom" :: tr.drop 1 }
    -- df.set_index("Classroom", inplace=True) (in place on the copy)
    let o2 := st2.getD cref default
    let st3 := st2.set cref
      { idx := o2.rows.map (fun r => r.getD 0 none)
        cols := o2.cols.drop 1
        rows := o2.rows.map (fun r => r.drop 1) }
    -- df = df.iloc[i+1:]; mask; dropna(how="all") — fresh objects only
    let o3 := st3.getD cref default
    let pairs := (o3.idx.zip o3.rows).drop (i + 1)
    let drows := pairs.map (fun p => DailyRow.mk p.1 (p.2.map (maskCell matchFn)))
    (st3, some ⟨o3.cols, drows.filter (fun dr => dr.cells.any Option.isSome)⟩)

/-!
### Auxiliary notions used only to state properties
-/

/-- The end label of a block that started as `b` and absorbed the further
slots `g`: `b`'s own end when `g` is empty, otherwise the end part of the
last absorbed slot's label. -/
def endOfRun (b : Block) (g : List Slot) : String :=
  match g.getLast? with
  | none => b.end_
  | some s => (splitLabel s.1).2

/-- `MergePartition slots blocks`: `blocks` cuts `slots` into consecutive
non-empty groups, in order; each block's start is the start part of its
group's first label and its end the end part of its group's last label. -/
inductive MergePartition : List Slot → List Block → Prop
  | nil : MergePartition [] []
  | cons (s : Slot) (g rest : List Slot) (b : Block) (bs : List Block)
      (hstart : b.start = (splitLabel s.1).1)
      (hend : ((s :: g).getLast?).map (fun sl => (splitLabel sl.1).2) = some b.end_)
      (htail : MergePartition rest bs) :
      MergePartition (s :: (g ++ rest)) (b :: bs)

/-!
### Concrete sample data used by witnesses and counterexamples
-/

/-- A concrete class-pattern matcher (the regex engine applied to the
pattern `EL 3`, restricted to exact-cell matching). -/
def sampleMatch (s : String) : Bool := s == "EL 3"

/-- A concrete sheet grid: banner row, time row, two classroom rows. -/
def sampleDf : List (List Cell) :=
  [[some "h", some "x"],
   [some "Classroom", some "7:00-9:00"],
   [some "R1", some "EL 3"],
   [some "R2", some "zzz"]]

/-- The same grid as a stored DataFrame object. -/
def samplePDF : PyDataFrame :=
  ⟨[none, none, none, none], [some "h", some "x"], sampleDf⟩

/-- A one-column Monday daily table with one matching class. -/
def wMon : DailyTable := ⟨[some "7:00-9:00"], [⟨some "R1", [some "EL 3A"]⟩]⟩

/-- A one-column daily table for a sheet that is not a weekday. -/
def wHol : DailyTable := ⟨[some "7:00-9:00"], [⟨some "R2", [some "EL 3B"]⟩]⟩

/-!
## Helper lemmas
-/

/-- Rebuilding a string from its characters is the identity. -/
theorem string_mk_data (s : String) : String.mk s.data = s := rfl

/-- A masked cell that is still present passed the pattern test. -/
theorem maskCell_some (f : String → Bool) (c : Cell) (s : String)
    (h : maskCell f c = some s) : f s = true := by
  unfold maskCell at h
  by_cases hc : f (cellStr c) = true
  · rw [if_pos hc] at h
    subst h
    simpa [cellStr] using hc
  · rw [if_neg hc] at h
    exact absurd h (by simp)

/-- `pySplit` always produces at least one part. -/
theorem pySplit_ne_nil (sep : Char) (l : List Char) : pySplit sep l ≠ [] := by
  induction l with
  | nil => simp [pySplit]
  | cons c rest ih =>
    by_cases h : c = sep
    · simp [pySplit, h]
    · cases hr : pySplit sep rest with
      | nil => exact absurd hr ih
      | cons g gs => simp [pySplit, h, hr]

/-- A one-part split means the separator never occurred: the sole part is
the whole input. -/
theorem pySplit_singleton (sep : Char) (l g : List Char)
    (h : pySplit sep l = [g]) : g = l := by
  induction l generalizing g with
  | nil => simpa [pySplit] using h.symm
  | cons c rest ih =>
    by_cases hc : c = sep
    · rw [show pySplit sep (c :: rest) = [] :: pySplit sep rest by simp [pySplit, hc]] at h
      cases hps : pySplit sep rest with
      | nil => exact absurd hps (pySplit_ne_nil sep rest)
      | cons a as => rw [hps] at h; simp at h
    · cases hps : pySplit sep rest with
      | nil => exact absurd hps (pySplit_ne_nil sep rest)
      | cons a as =>
        rw [show pySplit sep (c :: rest) = (c :: a) :: as by simp [pySplit, hc, hps]] at h
        obtain ⟨hga, has⟩ := List.cons_eq_cons.mp h
        rw [has] at hps
        rw [← hga, ih a hps]

/-!
## Claim theorems
-/

/-- Claim C1: in the slot-merging loop a new slot extends the open block
exactly when a block is open, its value equals the new slot's value, and
its end string equals the new slot's start string; otherwise the open
block (if any) is emitted and a new block is opened.  On the slots
`[("7:00","9:00","A"), ("9:00","11:00","A"), ("11:00","1:00","B")]` the
output is `[{7:00,11:00,A}, {11:00,1:00,B}]`. -/
theorem slotMerger_extend_iff_and_example :
    (∀ (b : Block) (acc : List Block) (k : String) (v : Option String) (rest : List Slot),
        mergeLoop (some b) acc ((k, v) :: rest) =
          if b.value = v ∧ b.end_ = (splitLabel k).1 then
            mergeLoop (some ⟨b.start, (splitLabel k).2, b.value⟩) acc rest
          else
            mergeLoop (some ⟨(splitLabel k).1, (splitLabel k).2, v⟩) (acc ++ [b]) rest) ∧
    (∀ (acc : List Block) (k : String) (v : Option String) (rest : List Slot),
        mergeLoop none acc ((k, v) :: rest) =
          mergeLoop (some ⟨(splitLabel k).1, (splitLabel k).2, v⟩) acc rest) ∧
    mergeDay [("7:00-9:00", some "A"), ("9:00-11:00", some "A"), ("11:00-1:00", some "B")] =
      [⟨"7:00", "11:00", some "A"⟩, ⟨"11:00", "1:00", some "B"⟩] :=
  ⟨fun _ _ _ _ _ => rfl, fun _ _ _ _ => rfl, by decide⟩

/-- Claim C6 counterexample: a label with no `-` (one split part) does
not raise; the loop silently defaults it to start `""` and end the whole
label, and merging proceeds with that defaulted pair. -/
theorem splitLabel_no_error_cex :
    splitLabel "Break" = ("", "Break") ∧
    mergeDay [("Break", some "X")] = [⟨"", "Break", some "X"⟩] := by decide

/-- Claim C6 (amended): a timeslot label whose split on `-` yields fewer
than two parts is silently defaulted — the start becomes `""` and the end
becomes the whole label — rather than raising an error. -/
theorem splitLabel_default_amended (key : String)
    (h : (pySplit '-' key.data).length = 1) :
    splitLabel key = ("", key) := by
  obtain ⟨g, hg⟩ := List.length_eq_one.mp h
  have hgl : g = key.data := pySplit_singleton '-' key.data g hg
  subst hgl
  simp [splitLabel, hg, joinDash, string_mk_data]

/-- Claim C6 witness: the amended statement at the label `"Break"`. -/
theorem splitLabel_default_amended_witness : splitLabel "Break" = ("", "Break") :=
  splitLabel_default_amended "Break" (by decide)

/-- Claim C7: a block yields an event only when its start, end and value
are all truthy (non-empty / non-null); a block with an empty start or a
null value yields none; in particular the timetable entry
`{day: "Monday", data: [{start: "", end: "None", value: None}]}` emits no
event anywhere on a week-long range containing a Monday. -/
theorem calendar_skips_untruthy_blocks :
    (∀ (date : Nat) (b : Block) (evs : List CalEvent),
        blockEvents date b = .ok evs → evs ≠ [] →
        b.start ≠ "" ∧ b.end_ ≠ "" ∧ ∃ v, b.value = some v ∧ v ≠ "") ∧
    (∀ (date : Nat) (b : Block), b.start = "" ∨ b.value = none →
        blockEvents date b = .ok []) ∧
    generateCalendar [⟨"Monday", [⟨"", "None", none⟩]⟩] 0 6 = .ok [] := by
  refine ⟨?_, ?_, by decide⟩
  · intro date b evs hok hne
    by_cases hc : (truthyStr b.start && truthyStr b.end_ && truthyVal b.value) = true
    · have h1 : truthyStr b.start = true := by
        have := hc; simp [Bool.and_eq_true] at this; exact this.1.1
      have h2 : truthyStr b.end_ = true := by
        have := hc; simp [Bool.and_eq_true] at this; exact this.1.2
      have h3 : truthyVal b.value = true := by
        have := hc; simp [Bool.and_eq_true] at this; exact this.2
      refine ⟨by simpa [truthyStr] using h1, by simpa [truthyStr] using h2, ?_⟩
      cases hv : b.value with
      | none => rw [hv] at h3; exact absurd h3 (by simp [truthyVal])
      | some v => exact ⟨v, rfl, by rw [hv] at h3; simpa [truthyVal] using h3⟩
    · unfold blockEvents at hok
      rw [if_neg hc] at hok
      have : evs = [] := by
        have := hok; injection this with h; exact h.symm
      exact absurd this hne
  · intro date b h
    have hc : (truthyStr b.start && truthyStr b.end_ && truthyVal b.value) = false := by
      rcases h with h | h
      · simp [truthyStr, h]
      · simp [truthyVal, h]
    unfold blockEvents
    rw [hc]
    simp

/-- Claim C7 witness: the all-truthy conditions are dischargeable and the
skip clause fires on the spec's gap block. -/
theorem calendar_skips_untruthy_blocks_witness :
    blockEvents 0 ⟨"", "None", none⟩ = .ok [] :=
  calendar_skips_untruthy_blocks.2.1 0 ⟨"", "None", none⟩ (Or.inl rfl)

/-- Claim C8 counterexample: with two timetable entries both named
`"Monday"`, a single in-range Monday receives events from both entries —
the second entry's block `B` is emitted, contrary to only the first
matching entry contributing. -/
theorem calendar_second_entry_emits_cex :
    generateCalendar
      [⟨"Monday", [⟨"7:00", "9:00", some "A"⟩]⟩,
       ⟨"Monday", [⟨"9:00", "11:00", some "B"⟩]⟩] 0 0 =
      .ok [⟨"A", 0, (7, 0), (9, 0)⟩, ⟨"B", 0, (9, 0), (11, 0)⟩] := by decide

/-- Claim C8 (amended): for each date, `generate_calendar` produces the
events of every timetable entry whose day name matches the date's weekday
name — all matching entries, in list order, not only the first. -/
theorem calendar_all_matching_entries (date : Nat) (data : List DayEntry) :
    eventsForDate date data =
      eventsOfEntries date (data.filter (fun d => d.day == weekDayName date)) := by
  induction data with
  | nil => rfl
  | cons d rest ih =>
    by_cases h : d.day = weekDayName date
    · have hb : (d.day == weekDayName date) = true := by simp [h]
      simp [eventsForDate, eventsOfEntries, List.filter, h, hb, ih]
    · have hb : (d.day == weekDayName date) = false := by simp [h]
      simp [eventsForDate, List.filter, h, hb, ih]

/-- Claim C2: every row surviving `_get_daily_table` has at least one
present cell, and every present cell passed the class-pattern search —
no failing cell appears in the output. -/
theorem dailyTable_filter_sound (matchFn : String → Bool) (df : List (List Cell))
    (dt : DailyTable) (h : getDailyTable matchFn df = some dt) :
    ∀ dr ∈ dt.rows,
      (∀ c ∈ dr.cells, ∀ s, c = some s → matchFn s = true) ∧
      dr.cells.any Option.isSome = true := by
  unfold getDailyTable at h
  cases htr : getTimeRow df with
  | none => rw [htr] at h; exact absurd h (by simp)
  | some p =>
    obtain ⟨i, tr⟩ := p
    rw [htr] at h
    have hdt : dt.rows =
        ((df.drop (i + 1)).map
          (fun r => DailyRow.mk (r.getD 0 none) ((r.drop 1).map (maskCell matchFn)))).filter
          (fun dr => dr.cells.any Option.isSome) := by
      have := Option.some.inj h
      rw [← this]
    intro dr hdr
    rw [hdt] at hdr
    obtain ⟨hmem, hany⟩ := List.mem_filter.mp hdr
    refine ⟨?_, hany⟩
    obtain ⟨r, _, hr⟩ := List.mem_map.mp hmem
    intro c hc s hcs
    have hcells : dr.cells = (r.drop 1).map (maskCell matchFn) := by rw [← hr]
    rw [hcells] at hc
    obtain ⟨c0, _, hc0⟩ := List.mem_map.mp hc
    exact maskCell_some matchFn c0 s (by rw [hc0, hcs])

/-- Claim C2 witness: on a concrete sheet with one matching and one
non-matching classroom row, the surviving cell passed the pattern. -/
theorem dailyTable_filter_sound_witness : sampleMatch "EL 3" = true := by
  have h := dailyTable_filter_sound sampleMatch sampleDf
    ⟨[some "7:00-9:00"], [⟨some "R1", [some "EL 3"]⟩]⟩ (by decide)
    ⟨some "R1", [some "EL 3"]⟩ (by simp)
  exact (h.1 (some "EL 3") (by simp) "EL 3" rfl)

/-- `getTimeRowAux` finds a first match: offset-indexed version. -/
theorem getTimeRowAux_first (rows : List (List Cell)) :
    ∀ (n k : Nat) (row : List Cell),
      rows.get? k = some row →
      isTimeSlotLabel (cellStr (row.getD 1 none)) = true →
      ∃ j r, getTimeRowAux n rows = some (n + j, r) ∧ rows.get? j = some r ∧
        isTimeSlotLabel (cellStr (r.getD 1 none)) = true ∧
        ∀ l rl, l < j → rows.get? l = some rl →
          isTimeSlotLabel (cellStr (rl.getD 1 none)) = false := by
  induction rows with
  | nil => intro n k row hk; simp at hk
  | cons r0 rs ih =>
    intro n k row hk hm
    by_cases h0 : isTimeSlotLabel (cellStr (r0.getD 1 none)) = true
    · refine ⟨0, r0, ?_, by simp, h0, by omega⟩
      show (if isTimeSlotLabel (cellStr (r0.getD 1 none)) = true then some (n, r0)
            else getTimeRowAux (n + 1) rs) = some (n + 0, r0)
      rw [if_pos h0, Nat.add_zero]
    · cases k with
      | zero =>
        have heq : r0 = row := by simpa using hk
        rw [← heq] at hm
        exact absurd hm h0
      | succ k2 =>
        have hk2 : rs.get? k2 = some row := by simpa using hk
        obtain ⟨j, r, haux, hget, hpr, hmin⟩ := ih (n + 1) k2 row hk2 hm
        refine ⟨j + 1, r, ?_, by simpa using hget, hpr, ?_⟩
        · show (if isTimeSlotLabel (cellStr (r0.getD 1 none)) = true then some (n, r0)
              else getTimeRowAux (n + 1) rs) = some (n + (j + 1), r)
          rw [if_neg h0, show n + (j + 1) = n + 1 + j by omega]
          exact haux
        · intro l rl hl hrl
          cases l with
          | zero =>
            have heq : r0 = rl := by simpa using hrl
            rw [← heq]
            simpa using h0
          | succ l2 =>
            exact hmin l2 rl (by omega) (by simpa using hrl)

/-- Claim C3: whenever some row's second column (stringified) matches the
time-slot pattern, `_get_time_row` returns a matching row at the least
such index — never a later one, even when an identical label reappears
lower in the sheet. -/
theorem timeRow_first_match (df : List (List Cell)) (k : Nat) (row : List Cell)
    (hk : df.get? k = some row)
    (hm : isTimeSlotLabel (cellStr (row.getD 1 none)) = true) :
    ∃ i r, getTimeRow df = some (i, r) ∧ i ≤ k ∧ df.get? i = some r ∧
      isTimeSlotLabel (cellStr (r.getD 1 none)) = true ∧
      ∀ j rj, j < i → df.get? j = some rj →
        isTimeSlotLabel (cellStr (rj.getD 1 none)) = false := by
  obtain ⟨j, r, haux, hget, hpr, hmin⟩ := getTimeRowAux_first df 0 k row hk hm
  refine ⟨j, r, by simpa [getTimeRow] using haux, ?_, hget, hpr, hmin⟩
  by_contra hlt
  push_neg at hlt
  have := hmin k row hlt hk
  rw [hm] at this
  exact absurd this (by simp)

/-- Claim C3 witness: on a sheet whose time-slot label row reappears
identically lower down, the scan returns the earlier row (index 1, not
the duplicate at index 2). -/
theorem timeRow_first_match_witness :
    ∃ i r,
      getTimeRow [[some "h", some "x"], [some "", some "7:00-9:00"], [some "", some "7:00-9:00"]] =
        some (i, r) ∧
      i ≤ 2 ∧
      [[some "h", some "x"], [some "", some "7:00-9:00"], [some "", some "7:00-9:00"]].get? i =
        some r ∧
      isTimeSlotLabel (cellStr (r.getD 1 none)) = true ∧
      ∀ j rj, j < i →
        [[some "h", some "x"], [some "", some "7:00-9:00"], [some "", some "7:00-9:00"]].get? j =
          some rj →
        isTimeSlotLabel (cellStr (rj.getD 1 none)) = false :=
  timeRow_first_match _ 2 [some "", some "7:00-9:00"] (by decide) (by decide)

/-- Setting the freshly appended slot of a store leaves the original
entries untouched. -/
theorem set_append_singleton {α : Type} (l : List α) (a b : α) :
    (l ++ [a]).set l.length b = l ++ [b] := by
  induction l with
  | nil => rfl
  | cons x xs ih => simp [List.set, ih]

/-- Claim C9: `_get_daily_table` does not mutate its input object — the
first statement copies it, and the two in-place operations (column
relabelling and `set_index`) write only through the copy, so every store
entry that existed before the call is unchanged after it. -/
theorem dailyTable_no_input_mutation (matchFn : String → Bool)
    (st : List PyDataFrame) (ref j : Nat) (h : j < st.length) :
    ((getDailyTableST matchFn st ref).1).get? j = st.get? j := by
  unfold getDailyTableST
  cases hgr : getTimeRow (st.getD ref default).rows with
  | none =>
    simp only [hgr]
    simpa using List.get?_append h
  | some p =>
    obtain ⟨i, tr⟩ := p
    simp only [hgr, set_append_singleton]
    simpa using List.get?_append h

/-- Claim C9 witness: the concrete stored sheet is unchanged by the call. -/
theorem dailyTable_no_input_mutation_witness :
    ((getDailyTableST sampleMatch [samplePDF] 0).1).get? 0 = [samplePDF].get? 0 :=
  dailyTable_no_input_mutation sampleMatch [samplePDF] 0 0 (by decide)

/-- A `.loc` assignment only ever appends to the row and column labels. -/
theorem assignLoc_labels (wt : WeeklyTable) (d : String) (p : Cell) (v : String) :
    (∃ ext, (assignLoc wt d p v).rowLabels = wt.rowLabels ++ ext) ∧
    (∃ ext, (assignLoc wt d p v).colLabels = wt.colLabels ++ ext) := by
  constructor
  · by_cases h : d ∈ wt.rowLabels
    · exact ⟨[], by simp [assignLoc, h]⟩
    · exact ⟨[d], by simp [assignLoc, h]⟩
  · by_cases h : p ∈ wt.colLabels
    · exact ⟨[], by simp [assignLoc, h]⟩
    · exact ⟨[p], by simp [assignLoc, h]⟩

/-- Filling one column only ever appends to the labels. -/
theorem fillPeriod_labels (wt : WeeklyTable) (d : String) (t : DailyTable) (j : Nat) :
    (∃ ext, (fillPeriod wt d t j).rowLabels = wt.rowLabels ++ ext) ∧
    (∃ ext, (fillPeriod wt d t j).colLabels = wt.colLabels ++ ext) := by
  unfold fillPeriod
  by_cases h : ((availEntries t j).any fun p => p.2 != "") = true
  · rw [if_pos h]
    exact assignLoc_labels wt d _ _
  · rw [if_neg h]
    exact ⟨⟨[], by simp⟩, ⟨[], by simp⟩⟩

/-- Folding `fillPeriod` over any index list only ever appends to labels. -/
theorem foldl_fillPeriod_labels (d : String) (t : DailyTable) :
    ∀ (l : List Nat) (wt : WeeklyTable),
      (∃ ext, (l.foldl (fun w j => fillPeriod w d t j) wt).rowLabels = wt.rowLabels ++ ext) ∧
      (∃ ext, (l.foldl (fun w j => fillPeriod w d t j) wt).colLabels = wt.colLabels ++ ext) := by
  intro l
  induction l with
  | nil => exact fun wt => ⟨⟨[], by simp⟩, ⟨[], by simp⟩⟩
  | cons j l ih =>
    intro wt
    obtain ⟨⟨e1, he1⟩, ⟨e2, he2⟩⟩ := fillPeriod_labels wt d t j
    obtain ⟨⟨f1, hf1⟩, ⟨f2, hf2⟩⟩ := ih (fillPeriod wt d t j)
    exact ⟨⟨e1 ++ f1, by simp [List.foldl, hf1, he1]⟩,
           ⟨e2 ++ f2, by simp [List.foldl, hf2, he2]⟩⟩

/-- Filling one day's table only ever appends to the labels. -/
theorem fillDay_labels (wt : WeeklyTable) (d : String) (t : DailyTable) :
    (∃ ext, (fillDay wt d t).rowLabels = wt.rowLabels ++ ext) ∧
    (∃ ext, (fillDay wt d t).colLabels = wt.colLabels ++ ext) :=
  foldl_fillPeriod_labels d t (List.range t.cols.length) wt

/-- Filling every sheet only ever appends to the labels. -/
theorem fillAll_labels :
    ∀ (ts : List (String × DailyTable)) (wt : WeeklyTable),
      (∃ ext, (fillAll wt ts).rowLabels = wt.rowLabels ++ ext) ∧
      (∃ ext, (fillAll wt ts).colLabels = wt.colLabels ++ ext) := by
  intro ts
  induction ts with
  | nil => exact fun wt => ⟨⟨[], by simp [fillAll]⟩, ⟨[], by simp [fillAll]⟩⟩
  | cons kt rest ih =>
    intro wt
    obtain ⟨k, t⟩ := kt
    obtain ⟨⟨e1, he1⟩, ⟨e2, he2⟩⟩ := fillDay_labels wt k t
    obtain ⟨⟨f1, hf1⟩, ⟨f2, hf2⟩⟩ := ih (fillDay wt k t)
    exact ⟨⟨e1 ++ f1, by simp [fillAll, hf1, he1]⟩,
           ⟨e2 ++ f2, by simp [fillAll, hf2, he2]⟩⟩

/-- `firstWeekday` misses exactly when no sheet is weekday-titled. -/
theorem firstWeekday_eq_none_iff (ts : List (String × DailyTable)) :
    firstWeekday ts = none ↔ ∀ kt ∈ ts, pyTitle kt.1 ∉ days5 := by
  induction ts with
  | nil => simp [firstWeekday]
  | cons kt rest ih =>
    obtain ⟨k, t⟩ := kt
    by_cases h : pyTitle k ∈ days5
    · simp [firstWeekday, h]
    · simp [firstWeekday, h, ih]

/-- `firstWeekday` returns the first weekday-titled sheet in file order. -/
theorem firstWeekday_append (pre rest : List (String × DailyTable)) (k : String)
    (t : DailyTable) (hpre : ∀ kt ∈ pre, pyTitle kt.1 ∉ days5) (hk : pyTitle k ∈ days5) :
    firstWeekday (pre ++ (k, t) :: rest) = some t := by
  induction pre with
  | nil => simp [firstWeekday, hk]
  | cons kt0 pre0 ih =>
    obtain ⟨k0, t0⟩ := kt0
    have h0 : pyTitle k0 ∉ days5 := hpre (k0, t0) (by simp)
    rw [List.cons_append]
    show (if pyTitle k0 ∈ days5 then some t0 else firstWeekday (pre0 ++ (k, t) :: rest)) = some t
    rw [if_neg h0]
    exact ih (fun kt hkt => hpre kt (by simp [hkt]))

/-- Claim C5: `get_time_table` fails with the no-weekday-sheet error
(carrying the attempted weekday list) exactly when no sheet's title-cased
name is a weekday; otherwise it succeeds and the column layout is
initialized from the first weekday-titled sheet in file order (that
sheet's columns lead the final column labels). -/
theorem weekly_no_weekday_error (tables : List (String × DailyTable)) :
    (buildWeeklyTable tables = .error (.noWeekdaySheet days5) ↔
        ∀ kt ∈ tables, pyTitle kt.1 ∉ days5) ∧
    (∀ (pre rest : List (String × DailyTable)) (k : String) (t : DailyTable),
        tables = pre ++ (k, t) :: rest →
        (∀ kt ∈ pre, pyTitle kt.1 ∉ days5) → pyTitle k ∈ days5 →
        ∃ wt, buildWeeklyTable tables = .ok wt ∧
          wt.colLabels.take t.cols.length = t.cols) := by
  constructor
  · constructor
    · intro herr
      cases hfw : firstWeekday tables with
      | none => exact (firstWeekday_eq_none_iff tables).mp hfw
      | some t =>
        unfold buildWeeklyTable at herr
        rw [hfw] at herr
        exact absurd herr (by simp)
    · intro hall
      unfold buildWeeklyTable
      rw [(firstWeekday_eq_none_iff tables).mpr hall]
  · intro pre rest k t htab hpre hk
    have hfw : firstWeekday tables = some t := by
      rw [htab]; exact firstWeekday_append pre rest k t hpre hk
    refine ⟨fillAll ⟨days5, t.cols, []⟩ tables, ?_, ?_⟩
    · unfold buildWeeklyTable
      rw [hfw]
    · obtain ⟨_, ⟨ext, hext⟩⟩ := fillAll_labels tables ⟨days5, t.cols, []⟩
      rw [hext]
      exact List.take_left t.cols ext

/-- Claim C5 witness: a non-weekday sheet followed by a lower-case
`monday` sheet — the error does not fire and the columns come from the
`monday` sheet; with no sheets at all the error fires. -/
theorem weekly_no_weekday_error_witness :
    buildWeeklyTable [] = .error (.noWeekdaySheet days5) ∧
    ∃ wt, buildWeeklyTable [("notes", wHol), ("monday", wMon)] = .ok wt ∧
      wt.colLabels.take wMon.cols.length = wMon.cols :=
  ⟨(weekly_no_weekday_error []).1.mpr (by simp),
   (weekly_no_weekday_error [("notes", wHol), ("monday", wMon)]).2
     [("notes", wHol)] [] "monday" wMon rfl (by decide) (by decide)⟩

/-- Assignment at an already-known row label keeps the row labels. -/
theorem assignLoc_rowLabels_of_mem (wt : WeeklyTable) (d : String) (p : Cell)
    (v : String) (h : d ∈ wt.rowLabels) :
    (assignLoc wt d p v).rowLabels = wt.rowLabels := by
  simp [assignLoc, h]

/-- Filling a column for an already-known day keeps the row labels. -/
theorem fillPeriod_rowLabels_of_mem (wt : WeeklyTable) (d : String) (t : DailyTable)
    (j : Nat) (h : d ∈ wt.rowLabels) :
    (fillPeriod wt d t j).rowLabels = wt.rowLabels := by
  unfold fillPeriod
  by_cases hc : ((availEntries t j).any fun p => p.2 != "") = true
  · rw [if_pos hc]
    exact assignLoc_rowLabels_of_mem wt d _ _ h
  · rw [if_neg hc]

/-- Filling a day already among the row labels keeps the row labels. -/
theorem fillDay_rowLabels_of_mem (d : String) (t : DailyTable) :
    ∀ (l : List Nat) (wt : WeeklyTable), d ∈ wt.rowLabels →
      (l.foldl (fun w j => fillPeriod w d t j) wt).rowLabels = wt.rowLabels := by
  intro l
  induction l with
  | nil => intro wt _; rfl
  | cons j l ih =>
    intro wt h
    have h1 := fillPeriod_rowLabels_of_mem wt d t j h
    calc (l.foldl (fun w j => fillPeriod w d t j) (fillPeriod wt d t j)).rowLabels
        = (fillPeriod wt d t j).rowLabels := ih _ (by rw [h1]; exact h)
      _ = wt.rowLabels := h1

/-- Filling sheets whose names are all known row labels keeps the labels. -/
theorem fillAll_rowLabels_of_mem :
    ∀ (ts : List (String × DailyTable)) (wt : WeeklyTable),
      (∀ kt ∈ ts, kt.1 ∈ wt.rowLabels) → (fillAll wt ts).rowLabels = wt.rowLabels := by
  intro ts
  induction ts with
  | nil => intro wt _; rfl
  | cons kt rest ih =>
    intro wt h
    obtain ⟨k, t⟩ := kt
    have hk : k ∈ wt.rowLabels := h (k, t) (by simp)
    have h1 : (fillDay wt k t).rowLabels = wt.rowLabels :=
      fillDay_rowLabels_of_mem k t (List.range t.cols.length) wt hk
    calc (fillAll (fillDay wt k t) rest).rowLabels
        = (fillDay wt k t).rowLabels :=
          ih _ (fun kt2 hkt2 => by rw [h1]; exact h kt2 (by simp [hkt2]))
      _ = wt.rowLabels := h1

/-- Every entry added by one column fill carries the filled day's name. -/
theorem fillPeriod_entries (wt : WeeklyTable) (d : String) (t : DailyTable) (j : Nat) :
    ∀ e ∈ (fillPeriod wt d t j).entries, e ∈ wt.entries ∨ e.1.1 = d := by
  intro e he
  unfold fillPeriod at he
  by_cases hc : ((availEntries t j).any fun p => p.2 != "") = true
  · rw [if_pos hc] at he
    simp only [assignLoc, List.mem_append] at he
    rcases he with he | he
    · exact Or.inl he
    · right
      have : e = ((d, t.cols.getD j none),
          joinNL ((availEntries t j).map
            (fun p => normalizeWS p.2 ++ " (" ++ cellStr p.1 ++ ")"))) := by simpa using he
      rw [this]
  · rw [if_neg hc] at he
    exact Or.inl he

/-- Every entry added by one day's fill carries that day's name. -/
theorem fillDay_entries (d : String) (t : DailyTable) :
    ∀ (l : List Nat) (wt : WeeklyTable) (e : (String × Cell) × String),
      e ∈ (l.foldl (fun w j => fillPeriod w d t j) wt).entries →
      e ∈ wt.entries ∨ e.1.1 = d := by
  intro l
  induction l with
  | nil => intro wt e he; exact Or.inl he
  | cons j l ih =>
    intro wt e he
    rcases ih (fillPeriod wt d t j) e he with h | h
    · exact fillPeriod_entries wt d t j e h
    · exact Or.inr h

/-- Every entry of the filled table stems from some listed sheet. -/
theorem fillAll_entries :
    ∀ (ts : List (String × DailyTable)) (wt : WeeklyTable) (e : (String × Cell) × String),
      e ∈ (fillAll wt ts).entries → e ∈ wt.entries ∨ ∃ kt ∈ ts, e.1.1 = kt.1 := by
  intro ts
  induction ts with
  | nil => intro wt e he; exact Or.inl he
  | cons kt rest ih =>
    intro wt e he
    obtain ⟨k, t⟩ := kt
    rcases ih (fillDay wt k t) e he with h | h
    · rcases fillDay_entries k t (List.range t.cols.length) wt e h with h2 | h2
      · exact Or.inl h2
      · exact Or.inr ⟨(k, t), by simp, h2⟩
    · obtain ⟨kt2, hkt2, heq⟩ := h
      exact Or.inr ⟨kt2, by simp [hkt2], heq⟩

/-- Claim C4 counterexample: a batch holding a weekday sheet and an extra
sheet titled `Holiday` (with a surviving cell) yields a table whose index
is the five weekdays plus an appended `Holiday` row — not exactly five
rows, and the extra sheet did contribute to the output. -/
theorem weekly_extra_sheet_row_cex :
    (match buildWeeklyTable [("Monday", wMon), ("Holiday", wHol)] with
      | .ok wt => wt.rowLabels
      | .error _ => []) = days5 ++ ["Holiday"] := by decide

/-- Claim C4 (amended): with at least one weekday-titled sheet the build
succeeds and the five weekday rows lead the index in fixed order; the
index is exactly the five weekdays when every sheet name is one of them
(a sheet with any other name and a surviving truthy cell appends its raw
title as an extra row); weekdays with no sheet keep all cells absent, and
no error is raised. -/
theorem weekly_rows_amended (tables : List (String × DailyTable))
    (h : ∃ kt ∈ tables, pyTitle kt.1 ∈ days5) :
    ∃ wt, buildWeeklyTable tables = .ok wt ∧
      wt.rowLabels.take 5 = days5 ∧
      ((∀ kt ∈ tables, kt.1 ∈ days5) → wt.rowLabels = days5) ∧
      (∀ d ∈ days5, (∀ kt ∈ tables, kt.1 ≠ d) → ∀ p, lookupCell wt d p = none) := by
  have hfw : ∃ t, firstWeekday tables = some t := by
    cases hfw : firstWeekday tables with
    | some t => exact ⟨t, rfl⟩
    | none =>
      obtain ⟨kt, hmem, hkt⟩ := h
      exact absurd hkt ((firstWeekday_eq_none_iff tables).mp hfw kt hmem)
  obtain ⟨t, hfw⟩ := hfw
  refine ⟨fillAll ⟨days5, t.cols, []⟩ tables, by unfold buildWeeklyTable; rw [hfw], ?_, ?_, ?_⟩
  · obtain ⟨⟨ext, hext⟩, _⟩ := fillAll_labels tables ⟨days5, t.cols, []⟩
    rw [hext]
    exact List.take_left days5 ext
  · intro hall
    exact fillAll_rowLabels_of_mem tables ⟨days5, t.cols, []⟩ (fun kt hkt => hall kt hkt)
  · intro d _ hno p
    unfold lookupCell
    rw [List.find?_eq_none.mpr ?_]
    · rfl
    · intro x hx
      have hx2 : x ∈ (fillAll ⟨days5, t.cols, []⟩ tables).entries := List.mem_reverse.mp hx
      rcases fillAll_entries tables ⟨days5, t.cols, []⟩ x hx2 with hin | hin
      · exact absurd hin (by simp)
      · obtain ⟨kt, hkt, heq⟩ := hin
        simp only [Bool.and_eq_true, beq_iff_eq]
        intro hcon
        exact absurd (heq ▸ hcon.1) (hno kt hkt)

/-- Claim C4 witness: the amended statement at a single-Monday batch —
the index is exactly the five weekdays and Tuesday stays fully absent. -/
theorem weekly_rows_amended_witness :
    ∃ wt, buildWeeklyTable [("Monday", wMon)] = .ok wt ∧
      wt.rowLabels.take 5 = days5 ∧
      ((∀ kt ∈ [("Monday", wMon)], kt.1 ∈ days5) → wt.rowLabels = days5) ∧
      (∀ d ∈ days5, (∀ kt ∈ [("Monday", wMon)], kt.1 ≠ d) → ∀ p,
        lookupCell wt d p = none) :=
  weekly_rows_amended [("Monday", wMon)] (by decide)

/-- Unfolding of the merge loop at an open block. -/
theorem mergeLoop_cons_some (b : Block) (acc : List Block) (k : String)
    (v : Option String) (rest : List Slot) :
    mergeLoop (some b) acc ((k, v) :: rest) =
      if b.value = v ∧ b.end_ = (splitLabel k).1 then
        mergeLoop (some ⟨b.start, (splitLabel k).2, b.value⟩) acc rest
      else
        mergeLoop (some ⟨(splitLabel k).1, (splitLabel k).2, v⟩) (acc ++ [b]) rest := rfl

/-- Unfolding of the merge loop with no open block. -/
theorem mergeLoop_cons_none (acc : List Block) (k : String) (v : Option String)
    (rest : List Slot) :
    mergeLoop none acc ((k, v) :: rest) =
      mergeLoop (some ⟨(splitLabel k).1, (splitLabel k).2, v⟩) acc rest := rfl

/-- The accumulator of the merge loop is only ever appended to. -/
theorem mergeLoop_acc :
    ∀ (slots : List Slot) (cur : Option Block) (acc : List Block),
      mergeLoop cur acc slots = acc ++ mergeLoop cur [] slots := by
  intro slots
  induction slots with
  | nil => intro cur acc; cases cur <;> simp [mergeLoop]
  | cons sl rest ih =>
    intro cur acc
    obtain ⟨k, v⟩ := sl
    cases cur with
    | none =>
      rw [mergeLoop_cons_none, mergeLoop_cons_none]
      exact ih _ acc
    | some b =>
      by_cases hc : b.value = v ∧ b.end_ = (splitLabel k).1
      · rw [mergeLoop_cons_some, mergeLoop_cons_some, if_pos hc, if_pos hc]
        exact ih _ acc
      · rw [mergeLoop_cons_some, mergeLoop_cons_some, if_neg hc, if_neg hc,
          ih _ (acc ++ [b]), ih _ ([] ++ [b])]
        simp

/-- Extending an open block by one slot shifts the run end bookkeeping. -/
theorem endOfRun_extend (b : Block) (k : String) (v : Option String) (g : List Slot) :
    endOfRun ⟨b.start, (splitLabel k).2, b.value⟩ g = endOfRun b ((k, v) :: g) := by
  cases g with
  | nil => simp [endOfRun]
  | cons g0 gs =>
    obtain ⟨x, hx⟩ := Option.isSome_iff_exists.mp
      ((List.getLast?_isSome).mpr (by simp) : (g0 :: gs).getLast?.isSome = true)
    simp [endOfRun, List.getLast?_cons_cons, hx]

/-- The last label of a run started at `(k, v)` determines the run end. -/
theorem getLast_map_endOfRun (k : String) (v : Option String) (g : List Slot)
    (b : Block) (hb : b.end_ = (splitLabel k).2) :
    (((k, v) :: g).getLast?).map (fun sl => (splitLabel sl.1).2) = some (endOfRun b g) := by
  cases g with
  | nil => simp [endOfRun, hb]
  | cons g0 gs =>
    obtain ⟨x, hx⟩ := Option.isSome_iff_exists.mp
      ((List.getLast?_isSome).mpr (by simp) : (g0 :: gs).getLast?.isSome = true)
    simp [endOfRun, hx, List.getLast?_cons_cons]

/-- Running the merge loop from an open block `b` cuts the remaining
slots into the run absorbed by `b` followed by a partitioned tail. -/
theorem mergeLoop_partition :
    ∀ (slots : List Slot) (b : Block),
      ∃ g rest bs, slots = g ++ rest ∧
        mergeLoop (some b) [] slots = ⟨b.start, endOfRun b g, b.value⟩ :: bs ∧
        MergePartition rest bs := by
  intro slots
  induction slots with
  | nil =>
    intro b
    exact ⟨[], [], [], rfl, rfl, .nil⟩
  | cons sl rest0 ih =>
    intro b
    obtain ⟨k, v⟩ := sl
    by_cases hc : b.value = v ∧ b.end_ = (splitLabel k).1
    · obtain ⟨g, rest, bs, hsplit, heq, hmp⟩ := ih ⟨b.start, (splitLabel k).2, b.value⟩
      refine ⟨(k, v) :: g, rest, bs, by rw [List.cons_append, ← hsplit], ?_, hmp⟩
      rw [mergeLoop_cons_some, if_pos hc, heq, endOfRun_extend b k v g]
    · obtain ⟨g2, rest2, bs2, hsplit2, heq2, hmp2⟩ :=
        ih ⟨(splitLabel k).1, (splitLabel k).2, v⟩
      refine ⟨[], (k, v) :: rest0,
        mergeLoop (some ⟨(splitLabel k).1, (splitLabel k).2, v⟩) [] rest0, rfl, ?_, ?_⟩
      · rw [mergeLoop_cons_some, if_neg hc,
          mergeLoop_acc rest0 (some ⟨(splitLabel k).1, (splitLabel k).2, v⟩) ([] ++ [b])]
        simp [endOfRun]
      · rw [heq2, hsplit2]
        exact MergePartition.cons (k, v) g2 rest2 _ bs2 rfl
          (getLast_map_endOfRun k v g2 _ rfl) hmp2

/-- A merge partition relates the last block's end to the last slot. -/
theorem mergePartition_last :
    ∀ {slots : List Slot} {bs : List Block}, MergePartition slots bs →
      bs.getLast?.map Block.end_ = slots.getLast?.map (fun s => (splitLabel s.1).2) := by
  intro slots bs h
  induction h with
  | nil => rfl
  | cons s g rest b bs2 hstart hend htail ih =>
    by_cases hr : rest = []
    · subst hr
      have hbs : bs2 = [] := by cases htail; rfl
      subst hbs
      simp only [List.append_nil]
      rw [hend]
      simp
    · have hbs2 : bs2 ≠ [] := by
        intro hb0
        subst hb0
        cases htail
        exact hr rfl
      obtain ⟨b2, bs3, rfl⟩ := List.exists_cons_of_ne_nil hbs2
      rw [List.getLast?_cons_cons,
        show s :: (g ++ rest) = (s :: g) ++ rest from rfl,
        List.getLast?_append_of_ne_nil _ hr]
      exact ih

/-- Claim C10: for a non-empty day the emitted blocks partition the input
slots in order — every slot lands in exactly one consecutive group, the
first block starts at the first slot's start, the last block ends at the
last slot's end, and at least one block is emitted. -/
theorem slotMerger_partition_invariant (slots : List Slot) (h : slots ≠ []) :
    MergePartition slots (mergeDay slots) ∧ mergeDay slots ≠ [] ∧
    (mergeDay slots).head?.map Block.start = slots.head?.map (fun s => (splitLabel s.1).1) ∧
    (mergeDay slots).getLast?.map Block.end_ =
      slots.getLast?.map (fun s => (splitLabel s.1).2) := by
  obtain ⟨sl, tl, rfl⟩ := List.exists_cons_of_ne_nil h
  obtain ⟨k, v⟩ := sl
  obtain ⟨g, rest, bs, hsplit, heq, hmp⟩ :=
    mergeLoop_partition tl ⟨(splitLabel k).1, (splitLabel k).2, v⟩
  have hmd : mergeDay ((k, v) :: tl) =
      ⟨(splitLabel k).1, endOfRun ⟨(splitLabel k).1, (splitLabel k).2, v⟩ g, v⟩ :: bs := by
    rw [show mergeDay ((k, v) :: tl) =
        mergeLoop (some ⟨(splitLabel k).1, (splitLabel k).2, v⟩) [] tl from rfl, heq]
  have hmp2 : MergePartition ((k, v) :: tl) (mergeDay ((k, v) :: tl)) := by
    rw [hmd, hsplit]
    exact MergePartition.cons (k, v) g rest _ bs rfl
      (getLast_map_endOfRun k v g _ rfl) hmp
  refine ⟨hmp2, by rw [hmd]; simp, by rw [hmd]; simp, mergePartition_last hmp2⟩

/-- Claim C10 witness: the partition invariant at a concrete two-slot day
whose second value is null. -/
theorem slotMerger_partition_invariant_witness :
    MergePartition [("7:00-9:00", some "A"), ("9:00-10:00", none)]
      (mergeDay [("7:00-9:00", some "A"), ("9:00-10:00", none)]) ∧
    mergeDay [("7:00-9:00", some "A"), ("9:00-10:00", none)] ≠ [] ∧
    (mergeDay [("7:00-9:00", some "A"), ("9:00-10:00", none)]).head?.map Block.start =
      [("7:00-9:00", some "A"), ("9:00-10:00", none)].head?.map
        (fun s => (splitLabel s.1).1) ∧
    (mergeDay [("7:00-9:00", some "A"), ("9:00-10:00", none)]).getLast?.map Block.end_ =
      [("7:00-9:00", some "A"), ("9:00-10:00", none)].getLast?.map
        (fun s => (splitLabel s.1).2) :=
  slotMerger_partition_invariant [("7:00-9:00", some "A"), ("9:00-10:00", none)] (by simp)
